import Mathlib

set_option autoImplicit false

/-!
Verification of the ROSETTA markdown translation core: a shallow embedding of
the chunk classifier (tools/stream_parser.py) and of the protect/translate/
render/restore pipeline pieces of tools/rosetta.py, with theorems checking the
documented properties against these definitions.  Lines of text are modelled as
lists of characters; a document stream is the list of its lines (each line of a
Python text stream carries its trailing newline, and the stream is exactly the
concatenation of its lines).
-/

namespace Rosetta

/- Characters that are awkward to write as literals are named here. -/
def backtickChar : Char := Char.ofNat 96
def backslashChar : Char := Char.ofNat 92
def lbraceChar : Char := Char.ofNat 123
def rbraceChar : Char := Char.ofNat 125
def newlineChar : Char := Char.ofNat 10
def tabChar : Char := Char.ofNat 9
def crChar : Char := Char.ofNat 13
def vtChar : Char := Char.ofNat 11
def ffChar : Char := Char.ofNat 12

abbrev Str := List Char

/-- Python str.strip strips these whitespace characters (the ASCII ones, which
are the only ones relevant to the fence / math markers checked here). -/
def isPyWhitespace (c : Char) : Bool :=
  c = ' ' || c = tabChar || c = newlineChar || c = crChar || c = vtChar || c = ffChar

/-- Tests whether pat occurs at the very start of s. -/
def leadsWith : Str → Str → Bool
  | [], _ => true
  | _ :: _, [] => false
  | p :: ps, c :: cs => p = c && leadsWith ps cs

/-- Index of the first character satisfying p, if any. -/
def firstIdx (p : Char → Bool) : Str → Option Nat
  | [] => none
  | c :: t => if p c then some 0 else (firstIdx p t).map (· + 1)

/-- Index of the first occurrence of the pattern pat as a contiguous substring. -/
def firstSubIdx (pat : Str) : Str → Option Nat
  | [] => if leadsWith pat [] then some 0 else none
  | c :: t => if leadsWith pat (c :: t) then some 0 else (firstSubIdx pat t).map (· + 1)

/-- ChunkType from stream_parser.py. -/
inductive ChunkType where
  | TEXT
  | CODE_INLINE
  | CODE_BLOCK
  | LATEX_INLINE
  | LATEX_BLOCK
  | SVG
  | HTML
deriving DecidableEq

/-- Chunk dataclass from stream_parser.py. -/
structure Chunk where
  ctype : ChunkType
  content : Str
  lineNumber : Nat
deriving DecidableEq

/-- Chunk.is_translatable: true exactly for TEXT chunks. -/
def Chunk.isTranslatable (c : Chunk) : Bool := c.ctype = ChunkType.TEXT

/-!
The five inline patterns of MarkdownStreamParser._parse_inline, in priority
order.  Each is embedded as a function deciding whether the pattern matches at
the start of the given suffix of the line, returning the length of the match.
The Python regexes are deterministic on these inputs (each bounded repetition
is over a class excluding its terminator), so each one either fails at a
position or matches a unique length there; the functions below compute exactly
that length.
-/

/-- Character class of the "math-signaling" characters required inside a
single-dollar span by the LATEX_INLINE regex of stream_parser.py (the escaped
letter alternative of the regex is subsumed: a backslash is itself in the
class). -/
def mathSignalChars : Str :=
  [backslashChar, '^', '_', lbraceChar, rbraceChar, '=', '+', '*', '/', '>', '<',
   '[', ']', '(', ')']

def isMathSignal (c : Char) : Bool := mathSignalChars.contains c

/-- Inline code regex of _parse_inline: a backtick, one or more non-backtick
characters, then a backtick.  Matches at this position iff the next backtick
after the opener exists and is not adjacent to it. -/
def matchCodeInlineAt : Str → Option Nat
  | [] => none
  | c :: t =>
    if c = backtickChar then
      (firstIdx (fun d => d = backtickChar) t).bind
        (fun k => if 1 ≤ k then some (k + 2) else none)
    else none

/-- Double-dollar block regex of _parse_inline: two dollars, one or more
non-dollar characters, then two dollars. -/
def matchLatexBlockAt : Str → Option Nat
  | c1 :: c2 :: t =>
    if c1 = '$' ∧ c2 = '$' then
      (firstIdx (fun d => d = '$') t).bind
        (fun k => if 1 ≤ k ∧ t.get? (k + 1) = some '$' then some (k + 4) else none)
    else none
  | _ => none

/-- Single-dollar inline math regex of _parse_inline: a dollar, then content up
to the next dollar, which must be nonempty, newline-free and contain at least
one math-signaling character. -/
def matchLatexInlineAt : Str → Option Nat
  | [] => none
  | c :: t =>
    if c = '$' then
      (firstIdx (fun d => d = '$') t).bind
        (fun k =>
          if 1 ≤ k ∧ (t.take k).all (fun d => ¬ d = newlineChar) ∧ (t.take k).any isMathSignal
          then some (k + 2) else none)
    else none

def svgOpenChars : Str := ['<', 's', 'v', 'g']
def svgCloseChars : Str := ['<', '/', 's', 'v', 'g', '>']

/-- SVG regex of _parse_inline: literal "<svg", non-'>' characters up to the
first '>', then the lazily-first occurrence of "</svg>". -/
def matchSvgAt (s : Str) : Option Nat :=
  if leadsWith svgOpenChars s then
    (firstIdx (fun d => d = '>') (s.drop 4)).bind
      (fun k =>
        (firstSubIdx svgCloseChars ((s.drop 4).drop (k + 1))).map
          (fun m => 4 + k + 1 + m + 6))
  else none

def isAsciiLetter (c : Char) : Bool := ('a' ≤ c && c ≤ 'z') || ('A' ≤ c && c ≤ 'Z')
def isAsciiAlnum (c : Char) : Bool := isAsciiLetter c || ('0' ≤ c && c ≤ '9')

/-- Closing tag string for a tag name. -/
def htmlCloseFor (tag : Str) : Str := '<' :: '/' :: (tag ++ ['>'])

/-- Greedy backtracking over the tag group of the HTML regex: tag candidates
are tried longest first; for each, the closing tag is searched lazily after
the first '>'. -/
def htmlTryTag (alnumRun : Str) (u : Str) (k : Nat) : Nat → Option Nat
  | 0 => none
  | n + 1 =>
    match firstSubIdx (htmlCloseFor (alnumRun.take (n + 1))) (u.drop (k + 1)) with
    | some m => some (1 + k + 1 + m + ((alnumRun.take (n + 1)).length + 3))
    | none => htmlTryTag alnumRun u k n

/-- HTML regex of _parse_inline: a '<', a tag name (letters/digits, starting
with a letter, greedy with backtracking), non-'>' characters up to the first
'>', then the lazily-first occurrence of the matching close tag. -/
def matchHtmlAt : Str → Option Nat
  | [] => none
  | c :: t =>
    if c = '<' then
      match t with
      | [] => none
      | d :: _ =>
        if isAsciiLetter d then
          (firstIdx (fun e => e = '>') t).bind
            (fun k => htmlTryTag (t.takeWhile isAsciiAlnum) t k (t.takeWhile isAsciiAlnum).length)
        else none
    else none

/-- Leftmost-match search: re.search tries each start position left to right
(including the empty suffix at the end). -/
def scanFirstFrom (matchAt : Str → Option Nat) : Str → Nat → Option (Nat × Nat)
  | [], i =>
    match matchAt [] with
    | some l => some (i, l)
    | none => none
  | c :: t, i =>
    match matchAt (c :: t) with
    | some l => some (i, l)
    | none => scanFirstFrom matchAt t (i + 1)

def scanFirst (matchAt : Str → Option Nat) (s : Str) : Option (Nat × Nat) :=
  scanFirstFrom matchAt s 0

/-- Earliest-match-wins accumulator of the pattern loop in _parse_inline: a
later pattern displaces the current winner only with a strictly smaller start. -/
def pickEarlier (a b : Option (ChunkType × Nat × Nat)) : Option (ChunkType × Nat × Nat) :=
  match a, b with
  | none, b => b
  | some x, none => some x
  | some x, some y => if y.2.1 < x.2.1 then some y else some x

def tagMatch (t : ChunkType) (r : Option (Nat × Nat)) : Option (ChunkType × Nat × Nat) :=
  r.map (fun p => (t, p.1, p.2))

/-- The pattern loop of _parse_inline over the five patterns in priority order. -/
def earliestMatch (s : Str) : Option (ChunkType × Nat × Nat) :=
  pickEarlier (pickEarlier (pickEarlier (pickEarlier
    (tagMatch ChunkType.CODE_INLINE (scanFirst matchCodeInlineAt s))
    (tagMatch ChunkType.LATEX_BLOCK (scanFirst matchLatexBlockAt s)))
    (tagMatch ChunkType.LATEX_INLINE (scanFirst matchLatexInlineAt s)))
    (tagMatch ChunkType.SVG (scanFirst matchSvgAt s)))
    (tagMatch ChunkType.HTML (scanFirst matchHtmlAt s))

theorem matchCodeInlineAt_pos {s : Str} {l : Nat} (h : matchCodeInlineAt s = some l) : 1 ≤ l := by
  cases s with
  | nil => simp [matchCodeInlineAt] at h
  | cons c t =>
    simp only [matchCodeInlineAt] at h
    split at h
    · cases hk : firstIdx (fun d => d = backtickChar) t with
      | none => rw [hk] at h; simp at h
      | some k =>
        rw [hk] at h
        simp only [Option.bind] at h
        split at h
        · injection h with h2; omega
        · simp at h
    · simp at h

theorem matchLatexBlockAt_pos {s : Str} {l : Nat} (h : matchLatexBlockAt s = some l) : 1 ≤ l := by
  match s with
  | [] => simp [matchLatexBlockAt] at h
  | [c] => simp [matchLatexBlockAt] at h
  | c1 :: c2 :: t =>
    simp only [matchLatexBlockAt] at h
    split at h
    · cases hk : firstIdx (fun d => d = '$') t with
      | none => rw [hk] at h; simp at h
      | some k =>
        rw [hk] at h
        simp only [Option.bind] at h
        split at h
        · injection h with h2; omega
        · simp at h
    · simp at h

theorem matchLatexInlineAt_pos {s : Str} {l : Nat} (h : matchLatexInlineAt s = some l) : 1 ≤ l := by
  cases s with
  | nil => simp [matchLatexInlineAt] at h
  | cons c t =>
    simp only [matchLatexInlineAt] at h
    split at h
    · cases hk : firstIdx (fun d => d = '$') t with
      | none => rw [hk] at h; simp at h
      | some k =>
        rw [hk] at h
        simp only [Option.bind] at h
        split at h
        · injection h with h2; omega
        · simp at h
    · simp at h

theorem matchSvgAt_pos {s : Str} {l : Nat} (h : matchSvgAt s = some l) : 1 ≤ l := by
  simp only [matchSvgAt] at h
  split at h
  · cases hk : firstIdx (fun d => d = '>') (s.drop 4) with
    | none => rw [hk] at h; simp at h
    | some k =>
      rw [hk] at h
      simp only [Option.bind] at h
      cases hm : firstSubIdx svgCloseChars ((s.drop 4).drop (k + 1)) with
      | none => rw [hm] at h; simp at h
      | some m =>
        rw [hm] at h
        simp only [Option.map] at h
        injection h with h2
        omega
  · simp at h

theorem htmlTryTag_pos {run u : Str} {k : Nat} :
    ∀ {n l : Nat}, htmlTryTag run u k n = some l → 1 ≤ l := by
  intro n
  induction n with
  | zero => intro l h; simp [htmlTryTag] at h
  | succ n ih =>
    intro l h
    simp only [htmlTryTag] at h
    cases hm : firstSubIdx (htmlCloseFor (run.take (n + 1))) (u.drop (k + 1)) with
    | none => rw [hm] at h; exact ih h
    | some m => rw [hm] at h; injection h with h2; omega

theorem matchHtmlAt_pos {s : Str} {l : Nat} (h : matchHtmlAt s = some l) : 1 ≤ l := by
  cases s with
  | nil => simp [matchHtmlAt] at h
  | cons c t =>
    simp only [matchHtmlAt] at h
    split at h
    · cases t with
      | nil => simp at h
      | cons d u =>
        simp only at h
        split at h
        · cases hk : firstIdx (fun e => e = '>') (d :: u) with
          | none => rw [hk] at h; simp at h
          | some k =>
            rw [hk] at h
            simp only [Option.bind] at h
            exact htmlTryTag_pos h
        · simp at h
    · simp at h

theorem scanFirstFrom_len {matchAt : Str → Option Nat}
    (hpos : ∀ {u l}, matchAt u = some l → 1 ≤ l) :
    ∀ {s : Str} {i st l : Nat}, scanFirstFrom matchAt s i = some (st, l) → 1 ≤ l := by
  intro s
  induction s with
  | nil =>
    intro i st l h
    simp only [scanFirstFrom] at h
    cases hm : matchAt [] with
    | none => rw [hm] at h; simp at h
    | some l0 => rw [hm] at h; cases h; exact hpos hm
  | cons c t ih =>
    intro i st l h
    simp only [scanFirstFrom] at h
    cases hm : matchAt (c :: t) with
    | none => rw [hm] at h; exact ih h
    | some l0 => rw [hm] at h; cases h; exact hpos hm

theorem tagMatch_len {t : ChunkType} {r : Option (Nat × Nat)} {ct : ChunkType} {st l : Nat}
    (hpos : ∀ {st' l'}, r = some (st', l') → 1 ≤ l')
    (h : tagMatch t r = some (ct, st, l)) : 1 ≤ l := by
  cases r with
  | none => simp [tagMatch] at h
  | some p =>
    simp only [tagMatch, Option.map] at h
    cases h
    exact hpos rfl

theorem pickEarlier_cases {a b x : Option (ChunkType × Nat × Nat)}
    (h : pickEarlier a b = x) : x = a ∨ x = b := by
  cases a with
  | none => right; simpa [pickEarlier] using h.symm
  | some xa =>
    cases b with
    | none => left; simpa [pickEarlier] using h.symm
    | some xb =>
      simp only [pickEarlier] at h
      split at h
      · right; exact h.symm
      · left; exact h.symm

/-- Every match reported by the pattern loop has positive length. -/
theorem earliestMatch_len_pos {s : Str} {ct : ChunkType} {st l : Nat}
    (h : earliestMatch s = some (ct, st, l)) : 1 ≤ l := by
  unfold earliestMatch at h
  rcases pickEarlier_cases h with h4 | h4
  · rcases pickEarlier_cases h4.symm with h3 | h3
    · rcases pickEarlier_cases h3.symm with h2 | h2
      · rcases pickEarlier_cases h2.symm with h1 | h1
        · exact tagMatch_len (fun hr => scanFirstFrom_len (fun hm => matchCodeInlineAt_pos hm) hr) h1.symm
        · exact tagMatch_len (fun hr => scanFirstFrom_len (fun hm => matchLatexBlockAt_pos hm) hr) h1.symm
      · exact tagMatch_len (fun hr => scanFirstFrom_len (fun hm => matchLatexInlineAt_pos hm) hr) h2.symm
    · exact tagMatch_len (fun hr => scanFirstFrom_len (fun hm => matchSvgAt_pos hm) hr) h3.symm
  · exact tagMatch_len (fun hr => scanFirstFrom_len (fun hm => matchHtmlAt_pos hm) hr) h4.symm

/-- The scanning while-loop of _parse_inline.  The suffix of the line still to
be scanned is passed explicitly (text_start always equals pos when the loop
tests for a match, so the pending TEXT gap is the segment before the match in
the current suffix); the matched chunk's content is the regex match, which is
exactly the corresponding slice of the line.  Every match consumes at least
one character (earliestMatch_len_pos), so the loop body runs at most once per
remaining character; the iteration budget is passed explicitly and the
exhausted-budget branch is unreachable whenever the budget is at least the
length of the suffix (parseInlineFuel_stable below). -/
def parseInlineFuel (ln : Nat) : Nat → Str → List Chunk
  | _, [] => []
  | 0, c :: t => [⟨ChunkType.TEXT, c :: t, ln⟩]
  | fuel + 1, c :: t =>
    match earliestMatch (c :: t) with
    | none => [⟨ChunkType.TEXT, c :: t, ln⟩]
    | some (ty, st, l) =>
      (if 0 < st then [⟨ChunkType.TEXT, (c :: t).take st, ln⟩] else []) ++
      ⟨ty, ((c :: t).drop st).take l, ln⟩ :: parseInlineFuel ln fuel ((c :: t).drop (st + l))

/-- MarkdownStreamParser._parse_inline on one line. -/
def parseInlineLoop (ln : Nat) (s : Str) : List Chunk :=
  parseInlineFuel ln s.length s

/-- Any budget at least the length of the remaining suffix gives the same
chunks, so the loop is insensitive to the budget and the exhausted-budget
branch never fires on the budget chosen by parseInlineLoop. -/
theorem parseInlineFuel_stable (ln : Nat) :
    ∀ fuel : Nat, ∀ s : Str, s.length ≤ fuel →
      parseInlineFuel ln fuel s = parseInlineFuel ln s.length s := by
  intro fuel
  induction fuel using Nat.strong_induction_on with
  | _ fuel ih =>
    intro s hle
    cases s with
    | nil => cases fuel <;> rfl
    | cons c t =>
      cases fuel with
      | zero => simp at hle
      | succ f =>
        simp only [List.length_cons] at hle
        simp only [List.length_cons, parseInlineFuel]
        cases hm : earliestMatch (c :: t) with
        | none => rfl
        | some r =>
          obtain ⟨ty, st, l⟩ := r
          have hl : 1 ≤ l := earliestMatch_len_pos hm
          have hlen : ((c :: t).drop (st + l)).length ≤ t.length := by
            simp only [List.length_drop, List.length_cons]
            omega
          have h1 : parseInlineFuel ln f ((c :: t).drop (st + l))
              = parseInlineFuel ln ((c :: t).drop (st + l)).length ((c :: t).drop (st + l)) := by
            apply ih f (Nat.lt_succ_self f)
            simp only [List.length_drop, List.length_cons]
            omega
          have h2 : parseInlineFuel ln t.length ((c :: t).drop (st + l))
              = parseInlineFuel ln ((c :: t).drop (st + l)).length ((c :: t).drop (st + l)) := by
            rcases Nat.eq_or_lt_of_le hlen with heq | hlt
            · rw [heq]
            · exact ih t.length (by omega) _ (Nat.le_of_lt hlt)
          simp only [h1, h2]

/-- Parser state of MarkdownStreamParser. -/
structure ParserState where
  lineNumber : Nat
  inCodeBlock : Bool
  codeFenceMarker : Option Str
  inLatexBlock : Bool
deriving DecidableEq

def backtickFence : Str := [backtickChar, backtickChar, backtickChar]
def tildeFence : Str := ['~', '~', '~']

/-- Fence-marker test at the start of a line. -/
def fenceMatch (line : Str) : Option Str :=
  if leadsWith backtickFence line then some backtickFence
  else if leadsWith tildeFence line then some tildeFence
  else none

def dollarDollar : Str := ['$', '$']

/-- Continuation of parse_line after the fence checks (the body reached both
when no fence marker matched and when a different fence marker occurred inside
an open code block).  The stripped-line test for a block-math marker only
needs the left strip: stripping trailing whitespace cannot change whether the
first two stripped characters are dollars. -/
def parseLineRest (st : ParserState) (line : Str) : ParserState × List Chunk :=
  if st.inCodeBlock then (st, [⟨ChunkType.CODE_BLOCK, line, st.lineNumber⟩])
  else if leadsWith dollarDollar (line.dropWhile isPyWhitespace) then
    ({ st with inLatexBlock := !st.inLatexBlock }, [⟨ChunkType.LATEX_BLOCK, line, st.lineNumber⟩])
  else if st.inLatexBlock then (st, [⟨ChunkType.LATEX_BLOCK, line, st.lineNumber⟩])
  else (st, parseInlineLoop st.lineNumber line)

/-- MarkdownStreamParser.parse_line. -/
def parseLine (st0 : ParserState) (line : Str) : ParserState × List Chunk :=
  let st := { st0 with lineNumber := st0.lineNumber + 1 }
  match fenceMatch line with
  | some fence =>
    if st.inCodeBlock = false then
      ({ st with inCodeBlock := true, codeFenceMarker := some fence },
       [⟨ChunkType.CODE_BLOCK, line, st.lineNumber⟩])
    else if st.codeFenceMarker = some fence then
      ({ st with inCodeBlock := false, codeFenceMarker := none },
       [⟨ChunkType.CODE_BLOCK, line, st.lineNumber⟩])
    else parseLineRest st line
  | none => parseLineRest st line

/-- MarkdownStreamParser.parse_stream over the lines of the input. -/
def parseLines (st : ParserState) : List Str → ParserState × List Chunk
  | [] => (st, [])
  | l :: ls =>
    let r1 := parseLine st l
    let r2 := parseLines r1.1 ls
    (r2.1, r1.2 ++ r2.2)

def initState : ParserState := ⟨0, false, none, false⟩

/-- chunk_document from stream_parser.py: parse a whole document (given as its
list of lines) with a fresh parser. -/
def chunkDocument (lines : List Str) : List Chunk := (parseLines initState lines).2

def joinContents (cs : List Chunk) : Str := (cs.map Chunk.content).flatten

/-- translate_chunks from stream_parser.py. -/
def translateChunks (chunks : List Chunk) (translateFunc : Str → Str) : Str :=
  (chunks.map (fun c => if c.isTranslatable then translateFunc c.content else c.content)).flatten

theorem joinContents_append (a b : List Chunk) :
    joinContents (a ++ b) = joinContents a ++ joinContents b := by
  simp [joinContents]

/-- The inline scanning loop emits chunks whose contents are consecutive
slices of the line, so their concatenation is the line itself. -/
theorem parseInlineFuel_join (ln : Nat) :
    ∀ fuel (s : Str), s.length ≤ fuel → joinContents (parseInlineFuel ln fuel s) = s := by
  intro fuel
  induction fuel with
  | zero =>
    intro s hle
    have hs : s = [] := List.length_eq_zero.mp (Nat.le_zero.mp hle)
    subst hs
    simp [parseInlineFuel, joinContents]
  | succ n ih =>
    intro s hle
    cases s with
    | nil => simp [parseInlineFuel, joinContents]
    | cons c t =>
      simp only [parseInlineFuel]
      cases hm : earliestMatch (c :: t) with
      | none => simp [joinContents]
      | some r =>
        obtain ⟨ty, st, l⟩ := r
        have hl : 1 ≤ l := earliestMatch_len_pos hm
        have hrec : joinContents (parseInlineFuel ln n ((c :: t).drop (st + l)))
            = (c :: t).drop (st + l) := by
          apply ih
          simp only [List.length_cons] at hle
          simp only [List.length_drop, List.length_cons]
          omega
        rw [joinContents_append]
        have hmid : joinContents
              (⟨ty, ((c :: t).drop st).take l, ln⟩ :: parseInlineFuel ln n ((c :: t).drop (st + l)))
            = ((c :: t).drop st).take l ++ (c :: t).drop (st + l) := by
          simp only [joinContents, List.map_cons, List.flatten_cons]
          rw [show ((parseInlineFuel ln n ((c :: t).drop (st + l))).map Chunk.content).flatten
                = joinContents (parseInlineFuel ln n ((c :: t).drop (st + l))) from rfl, hrec]
        rw [hmid]
        have hdrop : (c :: t).drop (st + l) = ((c :: t).drop st).drop l := by
          rw [List.drop_drop]
        split
        · simp only [joinContents, List.map_cons, List.map_nil, List.flatten_cons,
            List.flatten_nil, List.append_nil]
          rw [hdrop, List.take_append_drop, List.take_append_drop]
        · simp only [joinContents, List.map_nil, List.flatten_nil, List.nil_append]
          next hst =>
          have hst0 : st = 0 := Nat.eq_zero_of_not_pos hst
          subst hst0
          simp only [List.drop_zero] at *
          rw [hdrop, List.take_append_drop]

theorem parseInlineLoop_join (ln : Nat) (s : Str) :
    joinContents (parseInlineLoop ln s) = s :=
  parseInlineFuel_join ln s.length s le_rfl

/-- Every branch of parse_line emits chunks concatenating to the input line. -/
theorem parseLine_join (st : ParserState) (line : Str) :
    joinContents (parseLine st line).2 = line := by
  unfold parseLine
  cases fenceMatch line with
  | some fence =>
    simp only
    split
    · simp [joinContents]
    · split
      · simp [joinContents]
      · unfold parseLineRest
        split
        · simp [joinContents]
        · split
          · simp [joinContents]
          · split
            · simp [joinContents]
            · exact parseInlineLoop_join _ line
  | none =>
    simp only
    unfold parseLineRest
    split
    · simp [joinContents]
    · split
      · simp [joinContents]
      · split
        · simp [joinContents]
        · exact parseInlineLoop_join _ line

theorem parseLines_join (ls : List Str) :
    ∀ st : ParserState, joinContents (parseLines st ls).2 = ls.flatten := by
  induction ls with
  | nil => intro st; simp [parseLines, joinContents]
  | cons l ls ih =>
    intro st
    simp only [parseLines, List.flatten_cons]
    rw [joinContents_append, parseLine_join, ih]

/-- C1.  For every input stream (a stream is the concatenation of its lines,
each carrying its trailing newline), concatenating the contents of all chunks
produced by the chunk classifier, in emission order, reproduces the input
exactly. -/
theorem chunkDocument_lossless (lines : List Str) :
    joinContents (chunkDocument lines) = lines.flatten := by
  unfold chunkDocument
  exact parseLines_join lines initState

theorem leadsWith_append_self (p r : Str) : leadsWith p (p ++ r) = true := by
  induction p with
  | nil => rfl
  | cons c t ih => simp [leadsWith, ih]

theorem leadsWith_fence_exclusive {line : Str} (hb : leadsWith backtickFence line = true) :
    leadsWith tildeFence line = false := by
  cases line with
  | nil => simp [backtickFence, leadsWith] at hb
  | cons c t =>
    simp only [backtickFence, leadsWith, Bool.and_eq_true, decide_eq_true_eq] at hb
    obtain ⟨h1, _⟩ := hb
    subst h1
    rfl

theorem fenceMatch_append {m : Str} (o : Str) (hm : m = backtickFence ∨ m = tildeFence) :
    fenceMatch (m ++ o) = some m := by
  rcases hm with rfl | rfl
  · unfold fenceMatch
    rw [if_pos (leadsWith_append_self backtickFence o)]
  · unfold fenceMatch
    have h1 : leadsWith tildeFence (tildeFence ++ o) = true := leadsWith_append_self tildeFence o
    have h2 : leadsWith backtickFence (tildeFence ++ o) = false := by
      cases hb : leadsWith backtickFence (tildeFence ++ o) with
      | false => rfl
      | true => rw [leadsWith_fence_exclusive hb] at h1; cases h1
    rw [h2]
    simp [h1]

theorem fenceMatch_eq_none {line : Str} (h : fenceMatch line = none) :
    leadsWith backtickFence line = false ∧ leadsWith tildeFence line = false := by
  unfold fenceMatch at h
  split at h
  · cases h
  · split at h
    · cases h
    · next h1 h2 => exact ⟨by simpa using h1, by simpa using h2⟩

theorem fenceMatch_leads {line f : Str} (h : fenceMatch line = some f) :
    leadsWith f line = true := by
  unfold fenceMatch at h
  split at h
  · next h1 => cases h; exact h1
  · split at h
    · next h2 => cases h; exact h2
    · cases h

theorem fenceMatch_of_leads {line m : Str} (hm : m = backtickFence ∨ m = tildeFence)
    (h : leadsWith m line = true) : fenceMatch line = some m := by
  rcases hm with rfl | rfl
  · unfold fenceMatch
    rw [if_pos h]
  · unfold fenceMatch
    have h2 : leadsWith backtickFence line = false := by
      cases hb : leadsWith backtickFence line with
      | false => rfl
      | true => rw [leadsWith_fence_exclusive hb] at h; cases h
    rw [h2]
    simp [h]

/-- While in_code_block is set, parse_line emits the whole line as one
CODE_BLOCK chunk, whatever the line is. -/
theorem parseLine_inBlock_chunks (st : ParserState) (line : Str)
    (h1 : st.inCodeBlock = true) :
    (parseLine st line).2 = [⟨ChunkType.CODE_BLOCK, line, st.lineNumber + 1⟩] := by
  unfold parseLine parseLineRest
  cases hf : fenceMatch line with
  | none => simp [h1]
  | some f =>
    simp only [h1]
    rw [if_neg (by simp)]
    split <;> rfl

/-- While in_code_block is set with stored marker m, the state after a line
closes the block exactly when the line begins with m (and then the marker is
cleared); otherwise only the line counter advances. -/
theorem parseLine_inBlock_state (st : ParserState) (m line : Str)
    (h1 : st.inCodeBlock = true) (h2 : st.codeFenceMarker = some m)
    (hm : m = backtickFence ∨ m = tildeFence) :
    (parseLine st line).1 =
      if leadsWith m line = true
      then { st with
               lineNumber := st.lineNumber + 1
               inCodeBlock := false
               codeFenceMarker := none }
      else { st with lineNumber := st.lineNumber + 1 } := by
  unfold parseLine parseLineRest
  cases hf : fenceMatch line with
  | none =>
    have hleads := fenceMatch_eq_none hf
    have hmf : leadsWith m line = false := by
      rcases hm with rfl | rfl
      · exact hleads.1
      · exact hleads.2
    simp [h1, hmf]
  | some f =>
    simp only [h1, h2]
    by_cases hfm : f = m
    · subst hfm
      have hl : leadsWith f line = true := fenceMatch_leads hf
      simp [hl]
    · have hl : leadsWith m line = false := by
        cases hml : leadsWith m line with
        | false => rfl
        | true =>
          refine absurd ((fenceMatch_of_leads hm hml).symm.trans hf) ?_
          simp only [Option.some.injEq]
          exact fun hmf => hfm hmf.symm
      have hms : (some m = some f) = False :=
        eq_false (fun hmf => hfm (Option.some.inj hmf).symm)
      simp [h1, hl, hms]

/-- When no code block is open and the line starts with a fence marker, the
block opens with that marker and the whole line is one CODE_BLOCK chunk. -/
theorem parseLine_opens (st : ParserState) (f line : Str)
    (h1 : st.inCodeBlock = false) (hf : fenceMatch line = some f) :
    parseLine st line =
      ({ st with
           lineNumber := st.lineNumber + 1
           inCodeBlock := true
           codeFenceMarker := some f },
       [⟨ChunkType.CODE_BLOCK, line, st.lineNumber + 1⟩]) := by
  unfold parseLine
  rw [hf]
  simp [h1]

/-- An open code block never closed by a matching fence persists to the end of
the stream: every remaining line is one CODE_BLOCK chunk and the final state
still has in_code_block set with the same marker. -/
theorem parseLines_inBlock_all (m : Str) (hm : m = backtickFence ∨ m = tildeFence) :
    ∀ (lines : List Str) (st : ParserState),
      st.inCodeBlock = true → st.codeFenceMarker = some m →
      (∀ l ∈ lines, leadsWith m l = false) →
      (parseLines st lines).1.inCodeBlock = true ∧
      (parseLines st lines).1.codeFenceMarker = some m ∧
      (parseLines st lines).2.map Chunk.ctype = lines.map (fun _ => ChunkType.CODE_BLOCK) := by
  intro lines
  induction lines with
  | nil => intro st h1 h2 _; exact ⟨h1, h2, rfl⟩
  | cons l ls ih =>
    intro st h1 h2 hall
    have hst : (parseLine st l).1 = { st with lineNumber := st.lineNumber + 1 } := by
      rw [parseLine_inBlock_state st m l h1 h2 hm, if_neg]
      simp [hall l (by simp)]
    have hch := parseLine_inBlock_chunks st l h1
    simp only [parseLines, hch, hst, List.map_cons, List.map_append]
    have hrec := ih { st with lineNumber := st.lineNumber + 1 } h1 h2
      (fun x hx => hall x (by simp [hx]))
    exact ⟨hrec.1, hrec.2.1, by simp [hrec.2.2]⟩

/-- C6.  Classifying the line "This costs $5 and $10" produces no LATEX chunk
at all: the whole line is one TEXT chunk.  Classifying "Equation $x = 5$ here"
produces a LATEX_INLINE chunk whose content is exactly the span with its
dollars. -/
theorem dollar_disambiguation :
    chunkDocument [("This costs $5 and $10").toList]
      = [⟨ChunkType.TEXT, ("This costs $5 and $10").toList, 1⟩] ∧
    chunkDocument [("Equation $x = 5$ here").toList]
      = [⟨ChunkType.TEXT, ("Equation ").toList, 1⟩,
         ⟨ChunkType.LATEX_INLINE, ("$x = 5$").toList, 1⟩,
         ⟨ChunkType.TEXT, (" here").toList, 1⟩] := by
  constructor <;> decide

/-- C7 counterexample.  The 3-line fenced block (opening fence, one content
line, closing fence) yields 3 CODE_BLOCK chunks, so the claimed count of 4 is
false. -/
theorem fence_three_lines_not_four_chunks :
    ¬ (((chunkDocument [("```\n").toList, ("code\n").toList, ("```\n").toList]).filter
        (fun c => c.ctype = ChunkType.CODE_BLOCK)).length = 4) := by decide

/-- C7 amended.  Feeding the chunk classifier a 3-line fenced code block
(opening fence line, one content line, closing fence line) yields exactly 3
CODE_BLOCK chunks — one per line, each carrying the whole line — none of which
is translatable. -/
theorem fence_three_lines_chunks (m o c o2 : Str)
    (hm : m = backtickFence ∨ m = tildeFence) :
    chunkDocument [m ++ o, c, m ++ o2]
      = [⟨ChunkType.CODE_BLOCK, m ++ o, 1⟩, ⟨ChunkType.CODE_BLOCK, c, 2⟩,
         ⟨ChunkType.CODE_BLOCK, m ++ o2, 3⟩] ∧
    ∀ ch ∈ chunkDocument [m ++ o, c, m ++ o2], ch.isTranslatable = false := by
  have hunfold : chunkDocument [m ++ o, c, m ++ o2]
      = (parseLine initState (m ++ o)).2
        ++ ((parseLine (parseLine initState (m ++ o)).1 c).2
        ++ ((parseLine (parseLine (parseLine initState (m ++ o)).1 c).1 (m ++ o2)).2
        ++ [])) := rfl
  have e1 : parseLine initState (m ++ o)
      = (⟨1, true, some m, false⟩, [⟨ChunkType.CODE_BLOCK, m ++ o, 1⟩]) :=
    parseLine_opens initState m (m ++ o) rfl (fenceMatch_append o hm)
  have hdoc : chunkDocument [m ++ o, c, m ++ o2]
      = [⟨ChunkType.CODE_BLOCK, m ++ o, 1⟩, ⟨ChunkType.CODE_BLOCK, c, 2⟩,
         ⟨ChunkType.CODE_BLOCK, m ++ o2, 3⟩] := by
    by_cases hc : leadsWith m c = true
    · have e2 : parseLine (⟨1, true, some m, false⟩ : ParserState) c
          = (⟨2, false, none, false⟩, [⟨ChunkType.CODE_BLOCK, c, 2⟩]) := by
        have hs := parseLine_inBlock_state ⟨1, true, some m, false⟩ m c rfl rfl hm
        rw [if_pos hc] at hs
        exact Prod.ext hs (parseLine_inBlock_chunks ⟨1, true, some m, false⟩ c rfl)
      have e3 : parseLine (⟨2, false, none, false⟩ : ParserState) (m ++ o2)
          = (⟨3, true, some m, false⟩, [⟨ChunkType.CODE_BLOCK, m ++ o2, 3⟩]) :=
        parseLine_opens ⟨2, false, none, false⟩ m (m ++ o2) rfl (fenceMatch_append o2 hm)
      rw [hunfold, e1]
      simp only [e2, e3]
      rfl
    · have e2 : parseLine (⟨1, true, some m, false⟩ : ParserState) c
          = (⟨2, true, some m, false⟩, [⟨ChunkType.CODE_BLOCK, c, 2⟩]) := by
        have hs := parseLine_inBlock_state ⟨1, true, some m, false⟩ m c rfl rfl hm
        rw [if_neg hc] at hs
        exact Prod.ext hs (parseLine_inBlock_chunks ⟨1, true, some m, false⟩ c rfl)
      have e3 : (parseLine (⟨2, true, some m, false⟩ : ParserState) (m ++ o2)).2
          = [⟨ChunkType.CODE_BLOCK, m ++ o2, 3⟩] :=
        parseLine_inBlock_chunks ⟨2, true, some m, false⟩ (m ++ o2) rfl
      rw [hunfold, e1]
      simp only [e2, e3]
      rfl
  refine ⟨hdoc, ?_⟩
  intro ch hch
  rw [hdoc] at hch
  simp only [List.mem_cons, List.not_mem_nil, or_false] at hch
  rcases hch with rfl | rfl | rfl <;> rfl

/-- C8.  While in_code_block is active for a block opened with marker m, every
line — including a line beginning with a different fence marker — is emitted
as a single CODE_BLOCK chunk carrying the whole line; the block closes exactly
on a line beginning with m; and if no such line arrives, the state persists to
the end of the stream with every remaining line classified CODE_BLOCK and no
implicit close synthesized. -/
theorem fence_state_machine (st : ParserState) (m : Str)
    (h1 : st.inCodeBlock = true) (h2 : st.codeFenceMarker = some m)
    (hm : m = backtickFence ∨ m = tildeFence) :
    (∀ line : Str, (parseLine st line).2 = [⟨ChunkType.CODE_BLOCK, line, st.lineNumber + 1⟩]) ∧
    (∀ line : Str, ((parseLine st line).1.inCodeBlock = false) ↔ leadsWith m line = true) ∧
    (∀ lines : List Str, (∀ l ∈ lines, leadsWith m l = false) →
      (parseLines st lines).1.inCodeBlock = true ∧
      (parseLines st lines).1.codeFenceMarker = some m ∧
      (parseLines st lines).2.map Chunk.ctype = lines.map (fun _ => ChunkType.CODE_BLOCK)) := by
  refine ⟨fun line => parseLine_inBlock_chunks st line h1, fun line => ?_,
    fun lines hall => parseLines_inBlock_all m hm lines st h1 h2 hall⟩
  rw [parseLine_inBlock_state st m line h1 h2 hm]
  by_cases hl : leadsWith m line = true
  · rw [if_pos hl]
    simp [hl]
  · rw [if_neg hl]
    simp [h1, hl]

/-- C8 witness at a concrete open-block state: a tilde line inside a backtick
block stays in the block as a CODE_BLOCK chunk, a backtick line closes it, and
an unterminated stream leaves the state open. -/
theorem fence_state_machine_witness :
    (parseLine ⟨1, true, some backtickFence, false⟩ (("~~~\n").toList)).2
      = [⟨ChunkType.CODE_BLOCK, ("~~~\n").toList, 2⟩] ∧
    ((parseLine ⟨1, true, some backtickFence, false⟩ (("```\n").toList)).1.inCodeBlock = false
      ↔ leadsWith backtickFence (("```\n").toList) = true) ∧
    (parseLines ⟨1, true, some backtickFence, false⟩
        [("~~~\n").toList, ("still code\n").toList]).1.inCodeBlock = true := by
  have h := fence_state_machine ⟨1, true, some backtickFence, false⟩ backtickFence rfl rfl
    (Or.inl rfl)
  exact ⟨h.1 _, h.2.1 _, (h.2.2 [("~~~\n").toList, ("still code\n").toList] (by decide)).1⟩

/-- C7 witness: the amended statement evaluated on a concrete backtick fence
block with a language tag and content line. -/
theorem fence_three_lines_chunks_witness :
    chunkDocument [("```python\n").toList, ("print(1)\n").toList, ("```\n").toList]
      = [⟨ChunkType.CODE_BLOCK, ("```python\n").toList, 1⟩,
         ⟨ChunkType.CODE_BLOCK, ("print(1)\n").toList, 2⟩,
         ⟨ChunkType.CODE_BLOCK, ("```\n").toList, 3⟩] := by
  have h := fence_three_lines_chunks backtickFence (("python\n").toList)
    (("print(1)\n").toList) (("\n").toList) (Or.inl rfl)
  exact h.1

/-- C10.  translate_chunks with the identity translation function returns the
original document text exactly. -/
theorem translateChunks_identity (lines : List Str) :
    translateChunks (chunkDocument lines) (fun t => t) = lines.flatten := by
  have h1 : translateChunks (chunkDocument lines) (fun t => t)
      = joinContents (chunkDocument lines) := by
    unfold translateChunks joinContents
    congr 1
    apply List.map_congr_left
    intro c _
    split <;> rfl
  rw [h1]
  unfold chunkDocument
  exact parseLines_join lines initState

end Rosetta

namespace Rosetta

/-!
Embedding of tools/rosetta.py: the placeholder counter shared by both
protection passes, the pass-1 inline-math protection rule, the placeholder
restoration passes of translate_document, the batch-translation wrapper, and
the structural renderer.
-/

/-- string.ascii_lowercase used by _increment_string. -/
def alphabetChars : Str :=
  ['a', 'b', 'c', 'd', 'e', 'f', 'g', 'h', 'i', 'j', 'k', 'l', 'm',
   'n', 'o', 'p', 'q', 'r', 's', 't', 'u', 'v', 'w', 'x', 'y', 'z']

/-- Successor letter, alphabet[alphabet.index(c) + 1] in _increment_string;
only reached for lowercase letters other than z, where it is total. -/
def succLetter (c : Char) : Char := alphabetChars.getD (alphabetChars.indexOf c + 1) c

/-- ROSETTAMarkdownTranslator._increment_string, acting on the reversed string:
the source branches on the last character and recurses on the prefix, which is
exactly cons-recursion on the reversed list (the empty-prefix fallback of the
source coincides with the recursive branch applied to the empty prefix). -/
def incRev : Str → Str
  | [] => ['a']
  | c :: t => if c ≠ 'z' then succLetter c :: t else 'a' :: incRev t

def incrementString (s : Str) : Str := (incRev s.reverse).reverse

/-- Letter positions read as a bijective base-26 numeral, least significant
first (so on the reversed string). -/
def letterVal (c : Char) : Nat := c.toNat - 96

def rankRev : Str → Nat
  | [] => 0
  | c :: t => letterVal c + 26 * rankRev t

/-- Numeric rank of a counter string; increments by one per _increment_string
call, which is what makes the counter sequence strictly increasing. -/
def counterRank (s : Str) : Nat := rankRev s.reverse

theorem succLetter_val : ∀ c ∈ alphabetChars, c ≠ 'z' →
    letterVal (succLetter c) = letterVal c + 1 := by decide

theorem succLetter_mem : ∀ c ∈ alphabetChars, c ≠ 'z' →
    succLetter c ∈ alphabetChars := by decide

theorem incRev_rank {s : Str} (hs : ∀ c ∈ s, c ∈ alphabetChars) :
    rankRev (incRev s) = rankRev s + 1 := by
  induction s with
  | nil => decide
  | cons c t ih =>
    have hc : c ∈ alphabetChars := hs c (by simp)
    have ht : ∀ d ∈ t, d ∈ alphabetChars := fun d hd => hs d (by simp [hd])
    by_cases hz : c = 'z'
    · subst hz
      simp only [incRev, ne_eq, not_true_eq_false, if_false, rankRev, ih ht]
      have hv : letterVal 'z' = 26 := by decide
      have hva : letterVal 'a' = 1 := by decide
      rw [hv, hva]
      ring
    · simp only [incRev, ne_eq, hz, not_false_eq_true, if_true, rankRev,
        succLetter_val c hc hz]
      ring

theorem incRev_valid {s : Str} (hs : ∀ c ∈ s, c ∈ alphabetChars) :
    ∀ c ∈ incRev s, c ∈ alphabetChars := by
  induction s with
  | nil => intro c hcm; simp only [incRev] at hcm; simp at hcm; subst hcm; decide
  | cons c t ih =>
    have hc : c ∈ alphabetChars := hs c (by simp)
    have ht : ∀ d ∈ t, d ∈ alphabetChars := fun d hd => hs d (by simp [hd])
    intro d hd
    by_cases hz : c = 'z'
    · subst hz
      simp only [incRev, ne_eq, not_true_eq_false, if_false] at hd
      rcases List.mem_cons.mp hd with rfl | hd2
      · decide
      · exact ih ht d hd2
    · simp only [incRev, ne_eq, hz, not_false_eq_true, if_true] at hd
      rcases List.mem_cons.mp hd with rfl | hd2
      · exact succLetter_mem c hc hz
      · exact ht d hd2

theorem incrementString_rank {s : Str} (hs : ∀ c ∈ s, c ∈ alphabetChars) :
    counterRank (incrementString s) = counterRank s + 1 := by
  unfold incrementString counterRank
  rw [List.reverse_reverse]
  exact incRev_rank (fun c hcm => hs c (List.mem_reverse.mp hcm))

theorem incrementString_valid {s : Str} (hs : ∀ c ∈ s, c ∈ alphabetChars) :
    ∀ c ∈ incrementString s, c ∈ alphabetChars := by
  intro c hcm
  unfold incrementString at hcm
  exact incRev_valid (fun d hd => hs d (List.mem_reverse.mp hd)) c (List.mem_reverse.mp hcm)

/-- Value of the shared counter before the n-th placeholder is minted (the
counter starts at a and is incremented once per minted placeholder). -/
def counterSeq (n : Nat) : Str := Nat.iterate incrementString n ['a']

theorem counterSeq_valid (n : Nat) : ∀ c ∈ counterSeq n, c ∈ alphabetChars := by
  induction n with
  | zero => intro c hcm; simp [counterSeq] at hcm; subst hcm; decide
  | succ k ih =>
    intro c hcm
    rw [counterSeq, Function.iterate_succ_apply'] at hcm
    exact incrementString_valid ih c hcm

theorem counterSeq_rank (n : Nat) : counterRank (counterSeq n) = n + 1 := by
  induction n with
  | zero => decide
  | succ k ih =>
    rw [counterSeq, Function.iterate_succ_apply']
    show counterRank (incrementString (counterSeq k)) = k + 1 + 1
    rw [incrementString_rank (counterSeq_valid k), ih]

/-- Placeholder text minted for the n-th protected span: the fixed stem
rosettablock followed by the counter value. -/
def mintPlaceholder (n : Nat) : Str := ("rosettablock").toList ++ counterSeq n

/-- C5.  The counter sequence a, b, ..., z, aa, ab, ... is strictly increasing
in rank and pairwise distinct, so any two placeholders minted within one
document translation — across both protection passes, which share the single
counter — are distinct. -/
theorem placeholder_tokens_distinct (mIdx nIdx : Nat) (h : mIdx < nIdx) :
    counterRank (counterSeq mIdx) < counterRank (counterSeq nIdx) ∧
    counterSeq mIdx ≠ counterSeq nIdx ∧
    mintPlaceholder mIdx ≠ mintPlaceholder nIdx := by
  have hrank : counterRank (counterSeq mIdx) < counterRank (counterSeq nIdx) := by
    rw [counterSeq_rank, counterSeq_rank]
    omega
  have hne : counterSeq mIdx ≠ counterSeq nIdx := by
    intro he
    rw [he] at hrank
    exact lt_irrefl _ hrank
  refine ⟨hrank, hne, fun he => hne ?_⟩
  exact (List.append_right_inj _).mp he

/-- C5 witness: the sequence passes z into aa as documented, and the 1st and
27th placeholders are distinct. -/
theorem placeholder_tokens_distinct_witness :
    counterSeq 25 = ['z'] ∧ counterSeq 26 = ['a', 'a'] ∧ counterSeq 27 = ['a', 'b'] ∧
    mintPlaceholder 0 ≠ mintPlaceholder 26 :=
  ⟨by decide, by decide, by decide,
   (placeholder_tokens_distinct 0 26 (by decide)).2.2⟩

end Rosetta

namespace Rosetta

/-!
Placeholder restoration.  translate_document restores placeholders twice: the
early-return path (taken when no translatable text items were extracted)
iterates the placeholder dict in insertion order with str.replace; the final
pass (step 7) iterates the keys sorted by length, longest first.
-/

/-- Python str.replace scanning: replace every non-overlapping occurrence of
pat left to right.  The iteration budget is the length of the string (the scan
advances at least one character per step whenever pat is nonempty; all
patterns replaced by translate_document are nonempty placeholders, so the
empty-pattern behavior of Python never arises). -/
def replaceAllFuel (pat rep : Str) : Nat → Str → Str
  | _, [] => []
  | 0, s => s
  | fuel + 1, c :: t =>
    if pat ≠ [] ∧ leadsWith pat (c :: t) = true
    then rep ++ replaceAllFuel pat rep fuel ((c :: t).drop pat.length)
    else c :: replaceAllFuel pat rep fuel t

def replaceAll (pat rep s : Str) : Str := replaceAllFuel pat rep s.length s

/-- Early-return restoration of translate_document: placeholders are replaced
in the dict's insertion order, which is the order they were minted (shortest
first). -/
def restoreInsertionOrder (pm : List (Str × Str)) (s : Str) : Str :=
  pm.foldl (fun acc pr => replaceAll pr.1 pr.2 acc) s

/-- Stable insertion of a map entry into a length-descending list: an entry
goes before the first entry with a key no longer than its own, which is the
unique stable length-descending order, i.e. the order produced by
sorted(placeholder_map.keys(), key=len, reverse=True) in step 7. -/
def insertLenDesc (x : Str × Str) : List (Str × Str) → List (Str × Str)
  | [] => [x]
  | y :: t => if y.1.length ≤ x.1.length then x :: y :: t else y :: insertLenDesc x t

def sortLenDesc : List (Str × Str) → List (Str × Str)
  | [] => []
  | x :: t => insertLenDesc x (sortLenDesc t)

/-- Final restoration pass of translate_document with its longest-first token
order (for inputs where no placeholder occurrence carries leading
line-indentation, the indent branch of step 7 coincides with plain
replacement, which is the case in the evaluation below). -/
def restoreSorted (pm : List (Str × Str)) (s : Str) : Str :=
  restoreInsertionOrder (sortLenDesc pm) s

/-- Original contents recorded for the protected spans of the failing
document: 27 distinct inline-math spans. -/
def origContent (i : Nat) : Str := '$' :: 'v' :: ((toString i).toList ++ ['$'])

/-- Placeholder map of a document with 27 protected spans and no translatable
text (for instance a single HTML block containing 27 inline-math spans: pass 1
replaces the spans, the block parses as a raw html_block token, extraction
skips it, and the early-return path runs).  Insertion order is mint order. -/
def failingMap : List (Str × Str) :=
  (List.range 27).map (fun i => (mintPlaceholder i, origContent i))

set_option maxRecDepth 8000 in
/-- C2.  Evaluating the early-return restoration at the failing input: the
27th placeholder (token aa) is corrupted, because the pass replaces token a
first and token a is a substring of token aa; the restored text is span 1's
content followed by a stray letter a, not span 27's content.  The
longest-first order of the final pass restores the same input correctly. -/
theorem early_restore_corrupts_token_aa :
    restoreInsertionOrder failingMap (mintPlaceholder 26) = origContent 0 ++ ['a'] ∧
    origContent 0 ++ ['a'] ≠ origContent 26 ∧
    restoreSorted failingMap (mintPlaceholder 26) = origContent 26 := by
  refine ⟨?_, ?_, ?_⟩ <;> decide

/-!
Batch translation.  _translate_batch pipes the text through the external
normalize / udpipe / translate subprocess chain, modelled as an injected
fallible capability; the word-per-line output is folded back into a string.
-/

def arrowChar : Char := Char.ofNat 8594

/-- Python str.strip on both ends. -/
def stripChars (s : Str) : Str :=
  ((s.dropWhile isPyWhitespace).reverse.dropWhile isPyWhitespace).reverse

/-- Python line.split over the arrow with maxsplit 1, when the line contains
an arrow. -/
def splitFirstArrow (line : Str) : Option (Str × Str) :=
  (firstIdx (fun c => c = arrowChar) line).map (fun i => (line.take i, line.drop (i + 1)))

/-- Per-line output parsing of _translate_batch: keep only lines holding an
arrow; take the stripped translation after the arrow, falling back to the
stripped word before it when the translation is empty. -/
def translateBatchWords (translatedOutput : Str) : List Str :=
  ((stripChars translatedOutput).splitOn newlineChar).foldr
    (fun line acc =>
      if stripChars line = [] then acc
      else
        match splitFirstArrow line with
        | some (pre, post) =>
          (if stripChars post ≠ [] then stripChars post else stripChars pre) :: acc
        | none => acc)
    []

/-- Python single-space join of the collected words. -/
def joinWords (ws : List Str) : Str := (ws.intersperse [' ']).flatten

/-- ROSETTAMarkdownTranslator._translate_batch.  The subprocess pipeline is
the injected capability runPipeline; an exception anywhere in the try block is
an error value, and the except branch returns the input text unchanged. -/
def translateBatch (runPipeline : Str → Except Unit Str) (text : Str) : Str :=
  if stripChars text = [] then text
  else
    match runPipeline text with
    | Except.ok translatedOutput => joinWords (translateBatchWords translatedOutput)
    | Except.error _ => text

/-- C3 counterexample.  With a failing pipeline, _translate_batch returns the
whole original (nonempty) text instead of aborting the document: translation
failure is not fatal and full output is still produced from this text. -/
theorem translateBatch_failure_not_fatal :
    translateBatch (fun _ => Except.error ()) (("Hello world").toList)
      = ("Hello world").toList ∧
    (("Hello world").toList : Str) ≠ [] := by
  constructor <;> decide

/-- C3 amended.  If the translation pipeline raises, the exception is caught
and the batch falls back to its input text unchanged, so the document is still
rendered in full with that text untranslated; the pipeline is invoked once,
with no retry. -/
theorem translateBatch_failure_fallback (runPipeline : Str → Except Unit Str) (text : Str)
    (hfail : ∀ s, runPipeline s = Except.error ()) :
    translateBatch runPipeline text = text := by
  unfold translateBatch
  split
  · rfl
  · rw [hfail text]

/-- C3 witness for the amended statement at a concrete text and concrete
failing pipeline. -/
theorem translateBatch_failure_fallback_witness :
    translateBatch (fun _ => Except.error ()) (("More text here.").toList)
      = ("More text here.").toList :=
  translateBatch_failure_fallback (fun _ => Except.error ())
    (("More text here.").toList) (fun _ => rfl)

/-!
Pass-1 inline-math protection rule of translate_document, compared with the
classifier's single-dollar rule.
-/

def isAsciiDigit (c : Char) : Bool := '0' ≤ c && c ≤ '9'

/-- Pass-1 inline-math regex of translate_document: a dollar not followed by a
digit, then nonempty newline-free content up to the next dollar (no
math-signaling character is required). -/
def matchPass1MathAt : Str → Option Nat
  | [] => none
  | c :: t =>
    if c = '$' then
      match t with
      | [] => none
      | d :: _ =>
        if isAsciiDigit d then none
        else
          (firstIdx (fun e => e = '$') t).bind
            (fun k =>
              if 1 ≤ k ∧ (t.take k).all (fun e => ¬ e = newlineChar)
              then some (k + 2) else none)
    else none

/-- Successive non-overlapping matches of a pattern, scanning left to right:
the spans replaced by one re.sub call.  The budget argument mirrors
parseInlineFuel (every match is nonempty). -/
def spansOfFuel (matchAt : Str → Option Nat) : Nat → Str → List Str
  | _, [] => []
  | 0, _ => []
  | fuel + 1, c :: t =>
    match scanFirst matchAt (c :: t) with
    | none => []
    | some (st, l) =>
      ((c :: t).drop st).take l :: spansOfFuel matchAt fuel ((c :: t).drop (st + l))

def spansOf (matchAt : Str → Option Nat) (s : Str) : List Str :=
  spansOfFuel matchAt s.length s

/-- Spans the pass-1 inline-math substitution replaces in a line. -/
def pass1InlineMathSpans (line : Str) : List Str := spansOf matchPass1MathAt line

/-- Spans the chunk classifier marks LATEX_INLINE in a line. -/
def classifierInlineMathSpans (line : Str) : List Str :=
  ((parseInlineLoop 1 line).filter (fun ch => ch.ctype = ChunkType.LATEX_INLINE)).map
    Chunk.content

/-- C4 counterexample.  The two currency-exclusion rules are not the same: on
the single-line input with the span of two letters, pass 1 replaces the span
as inline math while the classifier classifies the whole line TEXT, so the two
span sets differ. -/
theorem pass1_classifier_math_rules_differ :
    pass1InlineMathSpans (("$ab$").toList) = [("$ab$").toList] ∧
    classifierInlineMathSpans (("$ab$").toList) = [] := by
  constructor <;> decide

/-- C4 amended.  Pass 1 excludes a span only when a digit immediately follows
the opening dollar, while the classifier requires a math-signaling character
inside the span; the two rules agree on the spec's motivating examples — the
currency line yields no math span under either rule and the equation line
yields exactly its dollar-delimited span under both — but not on all inputs. -/
theorem pass1_classifier_math_on_examples :
    pass1InlineMathSpans (("This costs $5 and $10").toList) = [] ∧
    classifierInlineMathSpans (("This costs $5 and $10").toList) = [] ∧
    pass1InlineMathSpans (("Equation $x = 5$ here").toList) = [("$x = 5$").toList] ∧
    classifierInlineMathSpans (("Equation $x = 5$ here").toList) = [("$x = 5$").toList] := by
  refine ⟨?_, ?_, ?_, ?_⟩ <;> decide

end Rosetta

namespace Rosetta

/-!
Structural renderer, _render_tokens of rosetta.py.  Tokens are the
markdown_it tokens the renderer consumes; the renderer branches on the
token.type string, so the closed set of strings it compares against is an
inductive tag, with other for every remaining kind (skipped by the default
branch).  The output buffer is kept as the list of appended pieces, exactly
like the result list of the source, and joined at the end.
-/

inductive TokType where
  | headingOpen
  | headingClose
  | paragraphOpen
  | paragraphClose
  | fence
  | codeBlock
  | htmlBlock
  | bulletListOpen
  | orderedListOpen
  | bulletListClose
  | orderedListClose
  | listItemOpen
  | listItemClose
  | tableOpen
  | tableClose
  | theadOpen
  | theadClose
  | tbodyOpen
  | tbodyClose
  | trOpen
  | trClose
  | thOpen
  | tdOpen
  | thClose
  | tdClose
  | inline
  | hr
  | blockquoteOpen
  | blockquoteClose
  | other
deriving DecidableEq

/-- The markdown_it Token fields the renderer reads: type, tag (heading
level), markup (list item marker), info (fence language), content, children. -/
structure Token where
  ttype : TokType
  tag : Str := []
  markup : Str := []
  info : Str := []
  content : Str := []
  children : List Token := []

mutual

/-- Structural equality of tokens, the Python == on markdown_it tokens (field
by field, children recursively). -/
def Token.beq : Token → Token → Bool
  | ⟨t1, g1, m1, i1, c1, ch1⟩, ⟨t2, g2, m2, i2, c2, ch2⟩ =>
    t1 = t2 && g1 = g2 && m1 = m2 && i1 = i2 && c1 = c2 && Token.beqList ch1 ch2

def Token.beqList : List Token → List Token → Bool
  | [], [] => true
  | x :: xs, y :: ys => Token.beq x y && Token.beqList xs ys
  | _, _ => false

end

/-- A text_items entry: extracted text, originating token, optional
translation filled after the round trip. -/
structure TextItem where
  text : Str
  token : Token
  translation : Option Str

def repChars (n : Nat) (u : Str) : Str := (List.replicate n u).flatten

/-- Python int(token.tag[1]): h1 gives 1, h2 gives 2, and so on. -/
def headingLevel (tag : Str) : Nat := (tag.getD 1 (Char.ofNat 48)).toNat - 48

/-- Three-space indent block, '   ' * list_depth when positive. -/
def indentOf (d : Int) : Str := if 0 < d then repChars d.toNat (("   ").toList) else []

/-- Blockquote prefix, '> ' * blockquote_depth when positive. -/
def bqPrefixOf (d : Int) : Str := if 0 < d then repChars d.toNat (("> ").toList) else []

/-- Item indent, '   ' * (list_depth - 1) when list_depth exceeds one. -/
def itemIndentOf (d : Int) : Str :=
  if 1 < d then repChars (d - 1).toNat (("   ").toList) else []

def joinSep (sep : Str) (ws : List Str) : Str := (ws.intersperse sep).flatten

/-- Separator row emitted after a table header with n counted columns. -/
def sepRowFor (n : Nat) : Str :=
  ("| ").toList ++ joinSep ((" | ").toList) (List.replicate n (("---").toList))
    ++ (" |\n").toList

/-- Backward column scan of the thead_close branch: starting just below the
given index, walk toward the front, stop on thead_open, count th_open. -/
def countThBack (toks : List Token) : Nat → Nat
  | 0 => 0
  | j + 1 =>
    (toks.get? j).elim (countThBack toks j) (fun t =>
      if t.ttype = TokType.theadOpen then 0
      else (if t.ttype = TokType.thOpen then 1 else 0) + countThBack toks j)

/-- The render_token_list loop of _render_tokens.  State: current index, list
depth, blockquote depth (integers: the source decrements without a floor),
translation cursor, and the list of appended output pieces.  The loop body
runs once per token, so the remaining iteration budget is the explicit first
argument; renderTokens passes the token count, making the exhausted branch
coincide with the loop exit. -/
def renderAux (toks : List Token) (items : List TextItem) :
    Nat → Nat → Int → Int → Nat → List Str → List Str × Nat
  | 0, _, _, _, itemIdx, acc => (acc, itemIdx)
  | fuel + 1, i, listDepth, bqDepth, itemIdx, acc =>
    match toks.get? i with
    | none => (acc, itemIdx)
    | some tk =>
      match tk.ttype with
      | TokType.headingOpen =>
        renderAux toks items fuel (i + 1) listDepth bqDepth itemIdx
          (acc ++ [if acc ≠ [] then [newlineChar] else [],
                   bqPrefixOf bqDepth ++ repChars (headingLevel tk.tag) ['#'] ++ [' ']])
      | TokType.headingClose =>
        renderAux toks items fuel (i + 1) listDepth bqDepth itemIdx
          (acc ++ [[newlineChar, newlineChar]])
      | TokType.paragraphOpen =>
        renderAux toks items fuel (i + 1) listDepth bqDepth itemIdx
          (if 0 < bqDepth then acc ++ [bqPrefixOf bqDepth]
           else if 0 < listDepth then acc ++ [indentOf listDepth]
           else acc)
      | TokType.paragraphClose =>
        renderAux toks items fuel (i + 1) listDepth bqDepth itemIdx
          (acc ++ [[newlineChar]] ++
           (if 0 < bqDepth then [bqPrefixOf bqDepth ++ [newlineChar]]
            else if listDepth = 0 then [[newlineChar]]
            else []))
      | TokType.fence =>
        renderAux toks items fuel (i + 1) listDepth bqDepth itemIdx
          (acc ++ [indentOf listDepth ++ ("```").toList ++ tk.info ++ [newlineChar],
                   indentOf listDepth ++ tk.content ++ [newlineChar],
                   indentOf listDepth ++ ("```").toList ++ [newlineChar]] ++
           (if listDepth = 0 then [[newlineChar]] else []))
      | TokType.codeBlock =>
        renderAux toks items fuel (i + 1) listDepth bqDepth itemIdx
          (acc ++ [indentOf listDepth ++ ("    ").toList ++ tk.content] ++
           (if listDepth = 0 then [[newlineChar]] else []))
      | TokType.htmlBlock =>
        renderAux toks items fuel (i + 1) listDepth bqDepth itemIdx
          (acc ++ [indentOf listDepth ++ tk.content])
      | TokType.bulletListOpen =>
        renderAux toks items fuel (i + 1) (listDepth + 1) bqDepth itemIdx
          (if listDepth = 0 then acc ++ [[newlineChar]] else acc)
      | TokType.orderedListOpen =>
        renderAux toks items fuel (i + 1) (listDepth + 1) bqDepth itemIdx
          (if listDepth = 0 then acc ++ [[newlineChar]] else acc)
      | TokType.bulletListClose =>
        renderAux toks items fuel (i + 1) (listDepth - 1) bqDepth itemIdx
          (if listDepth - 1 = 0 then acc ++ [[newlineChar]] else acc)
      | TokType.orderedListClose =>
        renderAux toks items fuel (i + 1) (listDepth - 1) bqDepth itemIdx
          (if listDepth - 1 = 0 then acc ++ [[newlineChar]] else acc)
      | TokType.listItemOpen =>
        renderAux toks items fuel (i + 1) listDepth bqDepth itemIdx
          (acc ++ [itemIndentOf listDepth ++
            (if tk.markup = ['-'] ∨ tk.markup = ['*'] ∨ tk.markup = ['+']
             then tk.markup ++ [' ']
             else ("1. ").toList)])
      | TokType.listItemClose =>
        renderAux toks items fuel (i + 1) listDepth bqDepth itemIdx acc
      | TokType.tableOpen =>
        renderAux toks items fuel (i + 1) listDepth bqDepth itemIdx (acc ++ [[newlineChar]])
      | TokType.tableClose =>
        renderAux toks items fuel (i + 1) listDepth bqDepth itemIdx (acc ++ [[newlineChar]])
      | TokType.theadOpen =>
        renderAux toks items fuel (i + 1) listDepth bqDepth itemIdx acc
      | TokType.theadClose =>
        renderAux toks items fuel (i + 1) listDepth bqDepth itemIdx
          (if 0 < countThBack toks i then acc ++ [sepRowFor (countThBack toks i)] else acc)
      | TokType.tbodyOpen =>
        renderAux toks items fuel (i + 1) listDepth bqDepth itemIdx acc
      | TokType.tbodyClose =>
        renderAux toks items fuel (i + 1) listDepth bqDepth itemIdx acc
      | TokType.trOpen =>
        renderAux toks items fuel (i + 1) listDepth bqDepth itemIdx (acc ++ [("| ").toList])
      | TokType.trClose =>
        renderAux toks items fuel (i + 1) listDepth bqDepth itemIdx (acc ++ [[newlineChar]])
      | TokType.thOpen =>
        renderAux toks items fuel (i + 1) listDepth bqDepth itemIdx acc
      | TokType.tdOpen =>
        renderAux toks items fuel (i + 1) listDepth bqDepth itemIdx acc
      | TokType.thClose =>
        renderAux toks items fuel (i + 1) listDepth bqDepth itemIdx (acc ++ [(" | ").toList])
      | TokType.tdClose =>
        renderAux toks items fuel (i + 1) listDepth bqDepth itemIdx (acc ++ [(" | ").toList])
      | TokType.inline =>
        match items.get? itemIdx with
        | some item =>
          if Token.beq item.token tk then
            renderAux toks items fuel (i + 1) listDepth bqDepth (itemIdx + 1)
              (acc ++ [item.translation.getD item.text])
          else
            renderAux toks items fuel (i + 1) listDepth bqDepth itemIdx acc
        | none =>
          renderAux toks items fuel (i + 1) listDepth bqDepth itemIdx acc
      | TokType.hr =>
        renderAux toks items fuel (i + 1) listDepth bqDepth itemIdx
          (acc ++ [newlineChar :: (("---").toList ++ [newlineChar, newlineChar])])
      | TokType.blockquoteOpen =>
        renderAux toks items fuel (i + 1) listDepth (bqDepth + 1) itemIdx acc
      | TokType.blockquoteClose =>
        renderAux toks items fuel (i + 1) listDepth (bqDepth - 1) itemIdx
          (if bqDepth - 1 = 0 then acc ++ [[newlineChar]] else acc)
      | TokType.other =>
        renderAux toks items fuel (i + 1) listDepth bqDepth itemIdx acc

/-- ROSETTAMarkdownTranslator._render_tokens: run the loop from the start with
empty buffer and cursor, join the appended pieces. -/
def renderTokens (toks : List Token) (items : List TextItem) : Str :=
  (renderAux toks items toks.length 0 0 0 0 []).1.flatten

end Rosetta

namespace Rosetta

/-- Number of th_open tokens in a token segment. -/
def countThOpen (l : List Token) : Nat :=
  (l.filter (fun t => t.ttype = TokType.thOpen)).length

/-- The backward scan of the thead_close branch counts exactly the th_open
tokens of the segment between the nearest preceding thead_open and the close,
provided the segment holds no other thead_open. -/
theorem countThBack_segment (toks : List Token) (j : Nat) (tj : Token)
    (hj : toks.get? j = some tj) (hopen : tj.ttype = TokType.theadOpen) :
    ∀ k : Nat, j + 1 + k ≤ toks.length →
      (∀ t ∈ (toks.drop (j + 1)).take k, t.ttype ≠ TokType.theadOpen) →
      countThBack toks (j + 1 + k) = countThOpen ((toks.drop (j + 1)).take k) := by
  intro k
  induction k with
  | zero =>
    intro _ _
    show countThBack toks (j + 1) = countThOpen ((toks.drop (j + 1)).take 0)
    rw [countThBack, hj]
    simp [Option.elim, hopen, countThOpen]
  | succ k ih =>
    intro hle hseg
    have hlt : j + 1 + k < toks.length := by omega
    obtain ⟨t, ht⟩ : ∃ t, toks.get? (j + 1 + k) = some t :=
      ⟨toks.get ⟨j + 1 + k, hlt⟩, List.get?_eq_get hlt⟩
    have ht' : toks[j + 1 + k]? = some t := by
      rw [← List.get?_eq_getElem?]
      exact ht
    have htk : (toks.drop (j + 1)).take (k + 1) = (toks.drop (j + 1)).take k ++ [t] := by
      rw [List.take_succ]
      have hgt : (toks.drop (j + 1))[k]? = some t := by
        rw [List.getElem?_drop]
        exact ht'
      rw [hgt]
      rfl
    have hmem : t ∈ (toks.drop (j + 1)).take (k + 1) := by
      rw [htk]
      exact List.mem_append_right _ (by simp)
    have hto : t.ttype ≠ TokType.theadOpen := hseg t hmem
    have hsub : ∀ u ∈ (toks.drop (j + 1)).take k, u.ttype ≠ TokType.theadOpen := by
      intro u hu
      exact hseg u (by rw [htk]; exact List.mem_append_left _ hu)
    show countThBack toks (j + 1 + k + 1) = countThOpen ((toks.drop (j + 1)).take (k + 1))
    rw [countThBack, ht]
    simp only [Option.elim]
    rw [if_neg hto, ih (by omega) hsub, htk]
    simp only [countThOpen, List.filter_append, List.length_append, List.filter_cons,
      List.filter_nil]
    by_cases hth : t.ttype = TokType.thOpen
    · simp only [hth]
      simp
      omega
    · simp [hth]

/-!
Counting the dash columns of a separator row: non-overlapping occurrences of
the three-dash cell, the same left-to-right scan as str.replace.
-/

def countSubFuel (pat : Str) : Nat → Str → Nat
  | _, [] => 0
  | 0, _ => 0
  | fuel + 1, c :: t =>
    if pat ≠ [] ∧ leadsWith pat (c :: t) = true
    then 1 + countSubFuel pat fuel ((c :: t).drop pat.length)
    else countSubFuel pat fuel t

def countSub (pat s : Str) : Nat := countSubFuel pat s.length s

theorem leadsWith_length {pat s : Str} (h : leadsWith pat s = true) : pat.length ≤ s.length := by
  induction pat generalizing s with
  | nil => simp
  | cons p ps ih =>
    cases s with
    | nil => simp [leadsWith] at h
    | cons c t =>
      simp only [leadsWith, Bool.and_eq_true] at h
      simpa using Nat.succ_le_succ (ih h.2)

theorem countSubFuel_stable (pat : Str) :
    ∀ fuel : Nat, ∀ s : Str, s.length ≤ fuel → countSubFuel pat fuel s = countSub pat s := by
  intro fuel
  induction fuel using Nat.strong_induction_on with
  | _ fuel ih =>
    intro s hle
    cases s with
    | nil => cases fuel <;> rfl
    | cons c t =>
      cases fuel with
      | zero => simp at hle
      | succ f =>
        simp only [List.length_cons] at hle
        simp only [countSub, List.length_cons, countSubFuel]
        by_cases hc : pat ≠ [] ∧ leadsWith pat (c :: t) = true
        · rw [if_pos hc, if_pos hc]
          have hplen : 1 ≤ pat.length := List.length_pos.mpr hc.1
          have hlen : ((c :: t).drop pat.length).length ≤ t.length := by
            simp only [List.length_drop, List.length_cons]
            omega
          have h1 := ih f (Nat.lt_succ_self f) ((c :: t).drop pat.length) (by omega)
          have h2 : countSubFuel pat t.length ((c :: t).drop pat.length)
              = countSub pat ((c :: t).drop pat.length) := by
            rcases Nat.eq_or_lt_of_le hlen with heq | hlt
            · rw [← heq]; rfl
            · exact ih t.length (by omega) _ (Nat.le_of_lt hlt)
          rw [h1, h2]
        · rw [if_neg hc, if_neg hc]
          have h1 := ih f (Nat.lt_succ_self f) t (by omega)
          rw [h1]
          rfl

theorem countSub_cons_nomatch {pat : Str} {c : Char} {t : Str}
    (h : ¬ (pat ≠ [] ∧ leadsWith pat (c :: t) = true)) :
    countSub pat (c :: t) = countSub pat t := by
  show countSubFuel pat (t.length + 1) (c :: t) = countSub pat t
  rw [countSubFuel, if_neg h]
  rfl

theorem countSub_cons_match {pat : Str} {c : Char} {t : Str}
    (hp : pat ≠ []) (h : leadsWith pat (c :: t) = true) :
    countSub pat (c :: t) = 1 + countSub pat ((c :: t).drop pat.length) := by
  show countSubFuel pat (t.length + 1) (c :: t) = _
  rw [countSubFuel, if_pos ⟨hp, h⟩]
  have hplen : 1 ≤ pat.length := List.length_pos.mpr hp
  have hlen : ((c :: t).drop pat.length).length ≤ t.length := by
    simp only [List.length_drop, List.length_cons]
    omega
  rw [countSubFuel_stable pat t.length _ hlen]

def dashCell : Str := ("---").toList

theorem countSub_dash_skip {c : Char} (hc : c ≠ '-') (t : Str) :
    countSub dashCell (c :: t) = countSub dashCell t := by
  apply countSub_cons_nomatch
  intro hand
  have hl := hand.2
  simp only [dashCell] at hl
  simp only [leadsWith, Bool.and_eq_true, decide_eq_true_eq] at hl
  exact hc hl.1.symm

theorem countSub_dash_cell (r : Str) :
    countSub dashCell (dashCell ++ r) = 1 + countSub dashCell r := by
  have h := @countSub_cons_match dashCell '-' (("--").toList ++ r)
    (by decide) (leadsWith_append_self dashCell r)
  have hd : (('-' :: (("--").toList ++ r)) : Str).drop dashCell.length = r := by
    show (dashCell ++ r).drop dashCell.length = r
    exact List.drop_left dashCell r
  rw [show (dashCell ++ r : Str) = '-' :: (("--").toList ++ r) from rfl, h, hd]

theorem countSub_sep_skip (r : Str) :
    countSub dashCell ((" | ").toList ++ r) = countSub dashCell r := by
  show countSub dashCell (' ' :: '|' :: ' ' :: r) = countSub dashCell r
  rw [countSub_dash_skip (by decide), countSub_dash_skip (by decide),
    countSub_dash_skip (by decide)]

theorem countSub_barSpace_skip (r : Str) :
    countSub dashCell (("| ").toList ++ r) = countSub dashCell r := by
  show countSub dashCell ('|' :: ' ' :: r) = countSub dashCell r
  rw [countSub_dash_skip (by decide), countSub_dash_skip (by decide)]

theorem countSub_dash_joinRow (m : Nat) :
    countSub dashCell
      (joinSep ((" | ").toList) (List.replicate (m + 1) dashCell) ++ (" |\n").toList)
      = m + 1 := by
  induction m with
  | zero =>
    rw [show joinSep ((" | ").toList) (List.replicate 1 dashCell) = dashCell by rfl]
    rw [countSub_dash_cell]
    decide
  | succ m ih =>
    have hexp : joinSep ((" | ").toList) (List.replicate (m + 2) dashCell)
        = dashCell ++ ((" | ").toList ++ joinSep ((" | ").toList)
            (List.replicate (m + 1) dashCell)) := by
      show (List.intersperse ((" | ").toList)
          (dashCell :: dashCell :: List.replicate m dashCell)).flatten = _
      rw [List.intersperse_cons_cons]
      simp [joinSep, List.replicate_succ]
    rw [hexp, List.append_assoc, List.append_assoc, countSub_dash_cell, countSub_sep_skip, ih]
    omega

theorem countSub_sepRow {n : Nat} (hn : 0 < n) :
    countSub dashCell (sepRowFor n) = n := by
  obtain ⟨m, rfl⟩ : ∃ m, n = m + 1 := ⟨n - 1, by omega⟩
  show countSub dashCell
    (("| ").toList ++ (joinSep ((" | ").toList) (List.replicate (m + 1) dashCell)
      ++ (" |\n").toList)) = m + 1
  rw [countSub_barSpace_skip]
  exact countSub_dash_joinRow m

end Rosetta

namespace Rosetta

/-- C9.  When the renderer reaches a thead_close token whose header segment —
the tokens strictly between the nearest preceding thead_open and the close,
holding no other thead_open — contains exactly n th_open tokens (n header
cells, n positive), the step emits exactly the separator row with n three-dash
columns, whatever the items list, depths, cursor and buffer are — hence
independent of how any cell text was translated; and that row contains exactly
n occurrences of the three-dash cell. -/
theorem table_separator_column_count (toks : List Token) (items : List TextItem)
    (fuel i j n : Nat) (listDepth bqDepth : Int) (itemIdx : Nat) (acc : List Str)
    (tk tj : Token)
    (hi : toks.get? i = some tk) (htype : tk.ttype = TokType.theadClose)
    (hj : toks.get? j = some tj) (hjopen : tj.ttype = TokType.theadOpen)
    (hji : j < i)
    (hseg : countThOpen ((toks.drop (j + 1)).take (i - j - 1)) = n)
    (hnoopen : ∀ t ∈ (toks.drop (j + 1)).take (i - j - 1), t.ttype ≠ TokType.theadOpen)
    (hn : 0 < n) :
    renderAux toks items (fuel + 1) i listDepth bqDepth itemIdx acc
      = renderAux toks items fuel (i + 1) listDepth bqDepth itemIdx (acc ++ [sepRowFor n]) ∧
    countSub dashCell (sepRowFor n) = n := by
  have hilen : i < toks.length := by
    rcases List.get?_eq_some.mp hi with ⟨hl, -⟩
    exact hl
  have hcount : countThBack toks i = n := by
    have heq : i = j + 1 + (i - j - 1) := by omega
    rw [heq]
    exact (countThBack_segment toks j tj hj hjopen (i - j - 1) (by omega) hnoopen).trans hseg
  refine ⟨?_, countSub_sepRow hn⟩
  simp only [renderAux]
  rw [hi]
  simp only
  rw [htype]
  simp only
  rw [hcount, if_pos hn]

/-- Bare token of a given kind. -/
def mkTok (t : TokType) : Token := ⟨t, [], [], [], [], []⟩

def cellInline (s : Str) : Token := ⟨TokType.inline, [], [], [], s, [⟨TokType.other, [], [], [], s, []⟩]⟩

/-- Token stream of a 2-column table header as the structural parser yields
it: table and thead open, a header row with two th cells, thead close. -/
def sampleTableToks : List Token :=
  [mkTok TokType.tableOpen, mkTok TokType.theadOpen,
   mkTok TokType.trOpen,
   mkTok TokType.thOpen, cellInline (("Name").toList), mkTok TokType.thClose,
   mkTok TokType.thOpen, cellInline (("Age").toList), mkTok TokType.thClose,
   mkTok TokType.trClose, mkTok TokType.theadClose,
   mkTok TokType.tableClose]

/-- Translated cell texts paired to the two inline tokens. -/
def sampleItems : List TextItem :=
  [⟨("Name").toList, cellInline (("Name").toList), some (("Nom").toList)⟩,
   ⟨("Age").toList, cellInline (("Age").toList), some (("Alter").toList)⟩]

/-- C9 witness: the 2-column table, with both header cells carrying
translations, gets a separator row of exactly 2 three-dash columns at its
thead_close step. -/
theorem table_separator_column_count_witness :
    renderAux sampleTableToks sampleItems 2 10 0 0 0 []
      = renderAux sampleTableToks sampleItems 1 11 0 0 0 [sepRowFor 2] ∧
    countSub dashCell (sepRowFor 2) = 2 := by
  have h := table_separator_column_count sampleTableToks sampleItems 1 10 1 2 0 0 0 []
    (mkTok TokType.theadClose) (mkTok TokType.theadOpen)
    rfl rfl rfl rfl (by decide) (by decide) (by decide) (by decide)
  exact h

end Rosetta
